import Mathlib

/-!
Verification of the measurement aggregation and export pipeline
(`src/export.rs` of the ergothic repository).

The `measure` module (`MeasureRegistry`, `Measures`, the statistical
accumulator `Acc`) is not part of the sources under verification; its
behaviour is modelled from the specification (registry contract in §4.1,
accumulator interface in §3/§9 of the spec).  The exporter itself
(`ExportError`, the `Exporter` trait, `DebugExporter`) is embedded from
`src/export.rs`.
-/

namespace Ergothic

/-- Modelled from the spec: the opaque statistical accumulator.  The spec
prescribes only its interface (current estimate value, current uncertainty,
number of samples folded in, and a merge operation) and requires the merge
to be a sound, associative combination of partial samples (§8, §9); the
concrete formula is explicitly left open.  We model it by the sufficient
statistics of a streaming mean/variance estimator: sum of samples, sum of
squared samples, and sample count, over exact rationals. -/
structure Acc where
  sum : ℚ
  sumsq : ℚ
  count : ℕ
deriving DecidableEq

/-- Modelled from the spec: the identity/zero state of the statistical
algebra (zero samples, zero value). -/
def Acc.zero : Acc := ⟨0, 0, 0⟩

/-- Modelled from the spec: merging two partial accumulators combines the
sufficient statistics of the two sample sets, i.e. adds them componentwise. -/
def Acc.merge (a b : Acc) : Acc := ⟨a.sum + b.sum, a.sumsq + b.sumsq, a.count + b.count⟩

/-- Modelled from the spec: the current estimate value (the sample mean). -/
def Acc.value (a : Acc) : ℚ := a.sum / a.count

/-- Modelled from the spec: the current uncertainty estimate, a definite
function of the accumulator state (variance of the mean estimator). -/
def Acc.uncertainty (a : Acc) : ℚ :=
  (a.sumsq / a.count - (a.sum / a.count) ^ 2) / a.count

/-- Modelled from the spec: the number of samples folded in. -/
def Acc.num_of_samples (a : Acc) : ℕ := a.count

/-- The accumulator summarizing a concrete list of samples. -/
def accOfSamples (xs : List ℚ) : Acc :=
  ⟨xs.sum, (xs.map (fun x => x ^ 2)).sum, xs.length⟩

/-- Modelled from the spec: one named measurement, a (name, accumulator)
pair (`measure.name`, `measure.acc` in the source). -/
structure Measure where
  name : String
  acc : Acc
deriving DecidableEq

/-- A junk measure used as the default of out-of-range reads; the exporter
only ever accesses indices returned by find/register. -/
def junkMeasure : Measure := ⟨"", Acc.zero⟩

/-- Modelled from the spec: a `MeasurementBatch`, an ordered sequence of
named measurement snapshots (`Measures` in the source). -/
structure Measures where
  measures : List Measure
deriving DecidableEq

/-- Modelled from the spec: `Measures::slice` exposes the ordered sequence
of measurements for iteration. -/
def Measures.slice (ms : Measures) : List Measure := ms.measures

/-- Index of the first occurrence of a name in a list of names. -/
def findS : List String → String → Option ℕ
  | [], _ => none
  | s :: rest, n => if s = n then some 0 else (findS rest n).map Nat.succ

/-- Modelled from the spec: the `AggregateRegistry` (`MeasureRegistry` in
the source), an ordered collection of named accumulators, insertion order
preserved, indexable by position, searchable by name. -/
structure MeasureRegistry where
  measures : List Measure
deriving DecidableEq

/-- Modelled from the spec: a fresh registry is empty. -/
def MeasureRegistry.new : MeasureRegistry := ⟨[]⟩

/-- The ordered list of registered names. -/
def MeasureRegistry.names (r : MeasureRegistry) : List String :=
  r.measures.map Measure.name

/-- Modelled from the spec: `find(name)` returns the position of the
accumulator registered under `name`, or not-found; a pure lookup. -/
def MeasureRegistry.find (r : MeasureRegistry) (name : String) : Option ℕ :=
  findS r.names name

/-- Modelled from the spec: `register(name)` inserts a new zero-state
accumulator under `name` at the end of the ordered collection and returns
the new registry together with the index of the inserted accumulator. -/
def MeasureRegistry.register (r : MeasureRegistry) (name : String) :
    MeasureRegistry × ℕ :=
  (⟨r.measures ++ [⟨name, Acc.zero⟩]⟩, r.measures.length)

/-- Modelled from the spec: reading the accumulator at a position
(`accumulator(index)` used as a read). -/
def MeasureRegistry.accAt (r : MeasureRegistry) (idx : ℕ) : Acc :=
  (r.measures.getD idx junkMeasure).acc

/-- Modelled from the spec: writing through the mutable reference returned
by `accumulator(index)`; replaces the accumulator state at the position,
leaving the name untouched. -/
def MeasureRegistry.setAcc (r : MeasureRegistry) (idx : ℕ) (a : Acc) :
    MeasureRegistry :=
  ⟨r.measures.set idx ⟨(r.measures.getD idx junkMeasure).name, a⟩⟩

/-- Errors returned by the exporter; contain a string describing the cause
of the error (from `src/export.rs`, line 8). -/
structure ExportError where
  cause : String
deriving DecidableEq

/-- An IEEE-style value as rendered by the debug exporter: the division
`uncertainty / |value|` on f64 produces an infinity or NaN when the divisor
is exactly zero.  Finite results are modelled exactly. -/
inductive FVal where
  | finite (q : ℚ)
  | posInf
  | negInf
  | nan
deriving DecidableEq

/-- Whether a rendered value is finite. -/
def FVal.isFinite : FVal → Bool
  | .finite _ => true
  | _ => false

/-- IEEE division `u / |v|` for finite operands: the divisor `|v|` is +0
when `v = 0`, so the quotient is NaN for `u = 0`, and a signed infinity
otherwise; for a nonzero divisor the (exact) finite quotient. -/
def ieeeDivAbs (u v : ℚ) : FVal :=
  if v = 0 then (if u = 0 then FVal.nan else if 0 < u then FVal.posInf else FVal.negInf)
  else FVal.finite (u / |v|)

/-- One row of the rendered table (from `DebugExporter::pretty_table`,
`src/export.rs` lines 47-58): name, expectation, uncertainty, and relative
uncertainty computed as `uncertainty / value.abs()`. -/
structure Row where
  name : String
  expectation : ℚ
  uncertainty : ℚ
  relativeUncertainty : FVal
deriving DecidableEq

/-- A junk row used as the default of out-of-range reads of the rendered
table. -/
def junkRow : Row := ⟨"", 0, 0, FVal.nan⟩

/-- Embeds `DebugExporter::pretty_table`: one row per measure, in the order
of the given sequence. -/
def pretty_table (ms : List Measure) : List Row :=
  ms.map (fun m =>
    ⟨m.name, m.acc.value, m.acc.uncertainty, ieeeDivAbs m.acc.uncertainty m.acc.value⟩)

/-- Everything `DebugExporter::export` prints after the merge loop
(`src/export.rs` lines 79-86): uptime in seconds, the samples-processed
figure, and the rendered table of the full aggregated state. -/
structure Report where
  uptimeSecs : ℕ
  samplesProcessed : ℕ
  table : List Row
deriving DecidableEq

/-- `DebugExporter` (from `src/export.rs` lines 19-22): owns the aggregated
registry and a creation timestamp.  Wall-clock instants are modelled as
natural numbers (seconds since an arbitrary epoch); `SystemTime` is not
monotone, so a later reading may be smaller. -/
structure DebugExporter where
  aggregated : MeasureRegistry
  creation_timestamp : ℕ
deriving DecidableEq

/-- `DebugExporter::new` (from `src/export.rs` lines 26-31): empty registry,
creation timestamp taken from the current instant. -/
def DebugExporter.new (now : ℕ) : DebugExporter :=
  ⟨MeasureRegistry.new, now⟩

/-- One iteration of the merge loop of `DebugExporter::export`
(`src/export.rs` lines 67-76): look the name up, register it on a miss,
merge the incoming snapshot into the accumulator at the resulting index,
and overwrite `samples_processed` with that accumulator's post-merge
sample count. -/
def exportStep (st : MeasureRegistry × ℕ) (measure : Measure) :
    MeasureRegistry × ℕ :=
  let p : MeasureRegistry × ℕ :=
    match st.1.find measure.name with
    | some idx => (st.1, idx)
    | none => st.1.register measure.name
  let r2 := p.1.setAcc p.2 ((p.1.accAt p.2).merge measure.acc)
  (r2, (r2.accAt p.2).num_of_samples)

/-- The whole merge loop of `DebugExporter::export` (`src/export.rs` lines
65-76), with `samples_processed` initialized to 0. -/
def mergeLoop (r : MeasureRegistry) (ms : Measures) : MeasureRegistry × ℕ :=
  ms.slice.foldl exportStep (r, 0)

/-- `SystemTime::elapsed` of the Rust standard library, as documented:
returns the elapsed duration, or an error if the current instant is earlier
than the creation instant (system clock moved backwards). -/
def systemTimeElapsed (creation now : ℕ) : Option ℕ :=
  if creation ≤ now then some (now - creation) else none

/-- `DebugExporter::export` (from `src/export.rs` lines 64-88).  The merge
loop runs first; then the uptime is computed via
`creation_timestamp.elapsed().unwrap()` — a `none` result models the panic
of `unwrap` when the clock moved backwards, in which case nothing is
reported and no `Result` is returned.  Otherwise the report (uptime,
samples-processed figure, table rendered from the full aggregated registry)
is delivered to the sink; the sink is a parameter, per the `Exporter` trait
(`src/export.rs` lines 11-15) whose contract allows the reporting stage to
fail with an `ExportError`. -/
def DebugExporter.export (sink : Report → Except ExportError Unit) (now : ℕ)
    (e : DebugExporter) (ms : Measures) :
    DebugExporter × Option (Report × Except ExportError Unit) :=
  let st := mergeLoop e.aggregated ms
  let e2 : DebugExporter := ⟨st.1, e.creation_timestamp⟩
  match systemTimeElapsed e.creation_timestamp now with
  | none => (e2, none)
  | some up =>
      let rep : Report := ⟨up, st.2, pretty_table e2.aggregated.measures⟩
      (e2, some (rep, sink rep))

/-- The concrete sink of `DebugExporter`: printing to stdout with
`println!`/`printstd`, which never surfaces an `ExportError`. -/
def stdoutSink : Report → Except ExportError Unit := fun _ => Except.ok ()

/-- A sequence of export calls on one exporter (the exporter state threaded
through; reports discarded). -/
def exportSeq (sink : Report → Except ExportError Unit) (now : ℕ)
    (e : DebugExporter) (batches : List Measures) : DebugExporter :=
  batches.foldl (fun ex ms => (ex.export sink now ms).1) e

/-- The caller-visible state around one export call: the exporter together
with the caller-owned batch.  `export` receives the batch by shared
reference and only reads it (`measure.name`, `measure.acc.clone()`), so the
state-passing embedding threads the batch through unchanged. -/
structure ProgState where
  exporter : DebugExporter
  batch : Measures
deriving DecidableEq

/-- One export call in the state-passing embedding: the exporter component
evolves by `export`, the caller-owned batch component is only read. -/
def exportP (sink : Report → Except ExportError Unit) (now : ℕ)
    (s : ProgState) : ProgState × Option (Report × Except ExportError Unit) :=
  let out := s.exporter.export sink now s.batch
  (⟨out.1, s.batch⟩, out.2)

/-! ### Helper lemmas about lists -/

/-- Reading a mapped list at an in-range position. -/
theorem getD_map_of_lt {α β : Type} (f : α → β) :
    ∀ (l : List α) (i : ℕ) (d : α) (d2 : β), i < l.length →
      (l.map f).getD i d2 = f (l.getD i d)
  | [], i, _, _, h => absurd h (by simp)
  | a :: _, 0, _, _, _ => rfl
  | _ :: l, i + 1, d, d2, h =>
      getD_map_of_lt f l i d d2 (by simpa using h)

/-- Writing at an in-range position then reading it back. -/
theorem getD_set_self_lt {α : Type} (l : List α) (i : ℕ) (a d : α)
    (h : i < l.length) : (l.set i a).getD i d = a := by
  simp [List.getD, List.getElem?_set_self, h]

/-- Reading the appended element. -/
theorem getD_append_self {α : Type} (l : List α) (x d : α) :
    (l ++ [x]).getD l.length d = x := by
  simp [List.getD]

/-- Overwriting the appended element. -/
theorem set_append_self {α : Type} (l : List α) (x y : α) :
    (l ++ [x]).set l.length y = l ++ [y] := by
  simp [List.set_append]

/-- Replacing an entry of a measure list by one with the same name leaves
the name sequence unchanged. -/
theorem map_name_set_point :
    ∀ (l : List Measure) (i : ℕ) (a : Acc),
      (l.set i ⟨(l.getD i junkMeasure).name, a⟩).map Measure.name
        = l.map Measure.name
  | [], _, _ => rfl
  | _ :: _, 0, _ => by simp [List.getD]
  | m :: l, i + 1, a => by
      simpa [List.getD] using map_name_set_point l i a

/-! ### Helper lemmas about name lookup -/

/-- A name lookup misses exactly when the name is absent. -/
theorem findS_eq_none_iff : ∀ (l : List String) (n : String),
    findS l n = none ↔ n ∉ l := by
  intro l n
  induction l with
  | nil => simp [findS]
  | cons s rest ih =>
      by_cases h : s = n
      · simp [findS, h]
      · simp [findS, h, Option.map_eq_none', ih, Ne.symm h]

/-- A successful name lookup returns an in-range index. -/
theorem findS_lt : ∀ (l : List String) (n : String) (i : ℕ),
    findS l n = some i → i < l.length := by
  intro l
  induction l with
  | nil => intro n i h; simp [findS] at h
  | cons s rest ih =>
      intro n i h
      by_cases hs : s = n
      · simp [findS, hs] at h
        simp only [List.length_cons]
        omega
      · simp [findS, hs, Option.map_eq_some'] at h
        obtain ⟨j, hj, rfl⟩ := h
        have := ih n j hj
        simpa using Nat.succ_lt_succ this

/-- A successful name lookup finds the looked-up name. -/
theorem findS_getD : ∀ (l : List String) (n : String) (i : ℕ),
    findS l n = some i → l.getD i "" = n := by
  intro l
  induction l with
  | nil => intro n i h; simp [findS] at h
  | cons s rest ih =>
      intro n i h
      by_cases hs : s = n
      · simp [findS, hs] at h
        subst h
        simpa using hs
      · simp [findS, hs, Option.map_eq_some'] at h
        obtain ⟨j, hj, rfl⟩ := h
        simpa [List.getD] using ih n j hj

/-- Looking a name up past a miss shifts the index by the miss's length. -/
theorem findS_append_none : ∀ (l l2 : List String) (n : String),
    findS l n = none →
      findS (l ++ l2) n = (findS l2 n).map (fun j => j + l.length) := by
  intro l
  induction l with
  | nil => intro l2 n _; simp
  | cons s rest ih =>
      intro l2 n h
      have hs : ¬ s = n := by
        intro hs
        simp [findS, hs] at h
      have hr : findS rest n = none := by
        simpa [findS, hs, Option.map_eq_none'] using h
      have step : findS (s :: rest ++ l2) n
          = (findS (rest ++ l2) n).map Nat.succ := by
        simp [findS, hs]
      rw [step, ih l2 n hr]
      cases findS l2 n with
      | none => rfl
      | some j =>
          simp only [Option.map_some', Option.some.injEq, List.length_cons]
          omega

/-- After a miss, appending the name makes lookup hit the appended slot. -/
theorem findS_append_name (l : List String) (n : String)
    (h : findS l n = none) : findS (l ++ [n]) n = some l.length := by
  rw [findS_append_none l [n] n h]
  simp [findS]

/-! ### Registry-level lemmas -/

/-- The name lists of registry and measures have equal length. -/
theorem names_length (r : MeasureRegistry) :
    r.names.length = r.measures.length := by
  simp [MeasureRegistry.names]

/-- A registry lookup misses exactly when the name is unregistered. -/
theorem find_eq_none_iff (r : MeasureRegistry) (n : String) :
    r.find n = none ↔ n ∉ r.names :=
  findS_eq_none_iff r.names n

/-- A registry hit returns an in-range index holding the looked-up name. -/
theorem find_some_range (r : MeasureRegistry) (n : String) (idx : ℕ)
    (h : r.find n = some idx) :
    idx < r.measures.length ∧ (r.measures.getD idx junkMeasure).name = n := by
  have h1 : idx < r.names.length := findS_lt r.names n idx h
  have h2 : r.names.getD idx "" = n := findS_getD r.names n idx h
  rw [names_length] at h1
  refine ⟨h1, ?_⟩
  rw [← h2]
  exact (getD_map_of_lt Measure.name r.measures idx junkMeasure "" h1).symm

/-- Writing an accumulator never changes the registered names. -/
theorem setAcc_names (r : MeasureRegistry) (i : ℕ) (a : Acc) :
    (r.setAcc i a).names = r.names :=
  map_name_set_point r.measures i a

/-- Characterization of one merge-loop iteration on a lookup miss: a fresh
zero-state accumulator is registered at the end and the incoming snapshot
is merged into it; the samples figure becomes its post-merge count. -/
theorem exportStep_miss (r : MeasureRegistry) (s : ℕ) (m : Measure)
    (h : r.find m.name = none) :
    exportStep (r, s) m
      = (⟨r.measures ++ [⟨m.name, Acc.zero.merge m.acc⟩]⟩,
         (Acc.zero.merge m.acc).num_of_samples) := by
  simp only [exportStep, h, MeasureRegistry.register, MeasureRegistry.setAcc,
    MeasureRegistry.accAt]
  rw [getD_append_self r.measures ⟨m.name, Acc.zero⟩ junkMeasure]
  rw [set_append_self]
  rw [getD_append_self r.measures _ junkMeasure]

/-- Characterization of one merge-loop iteration on a lookup hit: the
accumulator at the found index is merged with the incoming snapshot in
place (same name, same position); the samples figure becomes its
post-merge count. -/
theorem exportStep_hit (r : MeasureRegistry) (s : ℕ) (m : Measure)
    (idx : ℕ) (h : r.find m.name = some idx) :
    exportStep (r, s) m
      = (⟨r.measures.set idx ⟨m.name, (r.accAt idx).merge m.acc⟩⟩,
         ((r.accAt idx).merge m.acc).num_of_samples) := by
  obtain ⟨hlt, hname⟩ := find_some_range r m.name idx h
  simp only [exportStep, h, MeasureRegistry.setAcc, MeasureRegistry.accAt]
  rw [hname]
  rw [getD_set_self_lt r.measures idx _ junkMeasure hlt]

/-- One merge-loop iteration extends the name list by the measure's name
exactly when it was absent, and otherwise leaves it unchanged. -/
theorem exportStep_names (r : MeasureRegistry) (s : ℕ) (m : Measure) :
    (exportStep (r, s) m).1.names
      = if m.name ∈ r.names then r.names else r.names ++ [m.name] := by
  cases h : r.find m.name with
  | none =>
      have hmem : m.name ∉ r.names := (find_eq_none_iff r m.name).mp h
      rw [exportStep_miss r s m h, if_neg hmem]
      simp [MeasureRegistry.names]
  | some idx =>
      have hmem : m.name ∈ r.names := by
        by_contra hc
        rw [(find_eq_none_iff r m.name).mpr hc] at h
        exact Option.noConfusion h
      obtain ⟨hlt, hname⟩ := find_some_range r m.name idx h
      rw [exportStep_hit r s m idx h, if_pos hmem]
      show (r.measures.set idx _).map Measure.name = _
      rw [← hname]
      exact map_name_set_point r.measures idx _

/-- After one merge-loop iteration, looking the measure's name up hits the
slot that was just merged, and the samples figure equals that slot's
sample count. -/
theorem exportStep_find_post (r : MeasureRegistry) (s : ℕ) (m : Measure) :
    ∃ idx, (exportStep (r, s) m).1.find m.name = some idx ∧
      (exportStep (r, s) m).2
        = ((exportStep (r, s) m).1.accAt idx).num_of_samples := by
  cases h : r.find m.name with
  | none =>
      refine ⟨r.measures.length, ?_, ?_⟩
      · have hmem : m.name ∉ r.names := (find_eq_none_iff r m.name).mp h
        rw [exportStep_miss r s m h]
        show findS ((MeasureRegistry.mk
          (r.measures ++ [⟨m.name, Acc.zero.merge m.acc⟩])).names) m.name = _
        have : (MeasureRegistry.mk
            (r.measures ++ [⟨m.name, Acc.zero.merge m.acc⟩])).names
            = r.names ++ [m.name] := by
          simp [MeasureRegistry.names]
        rw [this, findS_append_name r.names m.name
          ((findS_eq_none_iff r.names m.name).mpr hmem), names_length]
      · rw [exportStep_miss r s m h]
        show (Acc.zero.merge m.acc).num_of_samples
          = ((MeasureRegistry.mk _).accAt r.measures.length).num_of_samples
        simp only [MeasureRegistry.accAt]
        rw [getD_append_self r.measures _ junkMeasure]
  | some idx =>
      obtain ⟨hlt, hname⟩ := find_some_range r m.name idx h
      refine ⟨idx, ?_, ?_⟩
      · have hnames : (exportStep (r, s) m).1.names = r.names := by
          rw [exportStep_names r s m, if_pos]
          by_contra hc
          rw [(find_eq_none_iff r m.name).mpr hc] at h
          exact Option.noConfusion h
        show findS (exportStep (r, s) m).1.names m.name = some idx
        rw [hnames]
        exact h
      · rw [exportStep_hit r s m idx h]
        show ((r.accAt idx).merge m.acc).num_of_samples
          = ((MeasureRegistry.mk _).accAt idx).num_of_samples
        simp only [MeasureRegistry.accAt]
        rw [getD_set_self_lt r.measures idx _ junkMeasure hlt]

/-! ### Merge-loop (fold) lemmas -/

/-- The merge loop preserves distinctness of registered names. -/
theorem foldl_names_nodup :
    ∀ (ml : List Measure) (r : MeasureRegistry) (s : ℕ),
      r.names.Nodup → ((ml.foldl exportStep (r, s)).1).names.Nodup := by
  intro ml
  induction ml with
  | nil => intro r s h; exact h
  | cons m rest ih =>
      intro r s h
      have hstep : (exportStep (r, s) m).1.names.Nodup := by
        rw [exportStep_names r s m]
        by_cases hmem : m.name ∈ r.names
        · rwa [if_pos hmem]
        · rw [if_neg hmem]
          simp [List.nodup_append, h, hmem]
      have heta : (exportStep (r, s) m)
          = ((exportStep (r, s) m).1, (exportStep (r, s) m).2) := rfl
      show ((rest.foldl exportStep (exportStep (r, s) m)).1).names.Nodup
      rw [heta]
      exact ih (exportStep (r, s) m).1 (exportStep (r, s) m).2 hstep

/-- The set of names registered after the merge loop is the union of the
previously registered names and the batch's names. -/
theorem foldl_names_toFinset :
    ∀ (ml : List Measure) (r : MeasureRegistry) (s : ℕ),
      ((ml.foldl exportStep (r, s)).1).names.toFinset
        = r.names.toFinset ∪ (ml.map Measure.name).toFinset := by
  intro ml
  induction ml with
  | nil => intro r s; simp
  | cons m rest ih =>
      intro r s
      have hstep : (exportStep (r, s) m).1.names.toFinset
          = r.names.toFinset ∪ {m.name} := by
        rw [exportStep_names r s m]
        by_cases hmem : m.name ∈ r.names
        · rw [if_pos hmem]
          rw [Finset.union_eq_left.mpr]
          simpa using hmem
        · rw [if_neg hmem]
          simp
      have heta : (exportStep (r, s) m)
          = ((exportStep (r, s) m).1, (exportStep (r, s) m).2) := rfl
      show ((rest.foldl exportStep (exportStep (r, s) m)).1).names.toFinset = _
      rw [heta, ih (exportStep (r, s) m).1 (exportStep (r, s) m).2, hstep]
      simp [Finset.union_assoc, Finset.insert_eq]

/-- The merge loop only ever appends names: the previously registered name
sequence is an initial segment of the new one. -/
theorem foldl_names_extend :
    ∀ (ml : List Measure) (r : MeasureRegistry) (s : ℕ),
      ∃ t, ((ml.foldl exportStep (r, s)).1).names = r.names ++ t := by
  intro ml
  induction ml with
  | nil => intro r s; exact ⟨[], by simp⟩
  | cons m rest ih =>
      intro r s
      have heta : (exportStep (r, s) m)
          = ((exportStep (r, s) m).1, (exportStep (r, s) m).2) := rfl
      obtain ⟨t, ht⟩ := ih (exportStep (r, s) m).1 (exportStep (r, s) m).2
      show ∃ t, ((rest.foldl exportStep (exportStep (r, s) m)).1).names = _
      rw [heta, ht, exportStep_names r s m]
      by_cases hmem : m.name ∈ r.names
      · exact ⟨t, by rw [if_pos hmem]⟩
      · exact ⟨m.name :: t, by rw [if_neg hmem]; simp⟩

/-! ### Accumulator algebra -/

/-- The modelled merge is associative. -/
theorem Acc.merge_assoc (a b c : Acc) :
    (a.merge b).merge c = a.merge (b.merge c) := by
  simp [Acc.merge, add_assoc]

/-- The zero state is a left identity of the merge. -/
theorem Acc.zero_merge (a : Acc) : Acc.zero.merge a = a := by
  cases a
  simp [Acc.merge, Acc.zero]

/-- The zero state is a right identity of the merge. -/
theorem Acc.merge_zero (a : Acc) : a.merge Acc.zero = a := by
  cases a
  simp [Acc.merge, Acc.zero]

/-- The accumulator of a concatenation is the merge of the accumulators. -/
theorem accOfSamples_append (xs ys : List ℚ) :
    accOfSamples (xs ++ ys) = (accOfSamples xs).merge (accOfSamples ys) := by
  simp [accOfSamples, Acc.merge]

/-- The accumulator of a sample list is invariant under permutation. -/
theorem accOfSamples_perm {xs ys : List ℚ} (h : xs.Perm ys) :
    accOfSamples xs = accOfSamples ys := by
  simp [accOfSamples, h.sum_eq, (h.map _).sum_eq, h.length_eq]

/-- Folding the merge over per-batch accumulators computes the accumulator
of the concatenation of the batches. -/
theorem foldl_merge_join :
    ∀ (bss : List (List ℚ)) (a : Acc),
      (bss.map accOfSamples).foldl Acc.merge a
        = a.merge (accOfSamples bss.flatten) := by
  intro bss
  induction bss with
  | nil =>
      intro a
      show a = a.merge (accOfSamples [])
      have : accOfSamples [] = Acc.zero := rfl
      rw [this, Acc.merge_zero]
  | cons b rest ih =>
      intro a
      show (rest.map accOfSamples).foldl Acc.merge (a.merge (accOfSamples b))
        = _
      rw [ih (a.merge (accOfSamples b)), Acc.merge_assoc,
        ← accOfSamples_append]
      rfl

/-- Merging a sequence of same-named snapshots into a registry holding just
that name folds them all into its single accumulator. -/
theorem foldl_same_name :
    ∀ (accs : List Acc) (nm : String) (a : Acc) (s : ℕ),
      ((accs.map (fun b => (⟨nm, b⟩ : Measure))).foldl exportStep
          (⟨[⟨nm, a⟩]⟩, s)).1
        = ⟨[⟨nm, accs.foldl Acc.merge a⟩]⟩ := by
  intro accs
  induction accs with
  | nil => intro nm a s; rfl
  | cons b rest ih =>
      intro nm a s
      have hfind : (MeasureRegistry.mk [⟨nm, a⟩]).find nm = some 0 := by
        simp [MeasureRegistry.find, MeasureRegistry.names, findS]
      have hstep : exportStep (⟨[⟨nm, a⟩]⟩, s) (⟨nm, b⟩ : Measure)
          = (⟨[⟨nm, a.merge b⟩]⟩, (a.merge b).num_of_samples) := by
        rw [exportStep_hit _ s _ 0 hfind]
        rfl
      show ((rest.map _).foldl exportStep
        (exportStep (⟨[⟨nm, a⟩]⟩, s) ⟨nm, b⟩)).1 = _
      rw [hstep]
      exact ih nm (a.merge b) (a.merge b).num_of_samples

/-- Merging a nonempty sequence of same-named snapshots into a fresh
registry yields a single accumulator folding all of them from zero. -/
theorem mergeLoop_fresh_same_name (nm : String) :
    ∀ (accs : List Acc), accs ≠ [] →
      (mergeLoop MeasureRegistry.new ⟨accs.map (fun b => ⟨nm, b⟩)⟩).1
        = ⟨[⟨nm, accs.foldl Acc.merge Acc.zero⟩]⟩ := by
  intro accs h
  cases accs with
  | nil => exact absurd rfl h
  | cons b rest =>
      have hfind : MeasureRegistry.new.find nm = none := rfl
      have hstep : exportStep (MeasureRegistry.new, 0) (⟨nm, b⟩ : Measure)
          = (⟨[⟨nm, Acc.zero.merge b⟩]⟩,
             (Acc.zero.merge b).num_of_samples) := by
        rw [exportStep_miss _ 0 _ hfind]
        rfl
      show ((rest.map _).foldl exportStep
        (exportStep (MeasureRegistry.new, 0) ⟨nm, b⟩)).1 = _
      rw [hstep, foldl_same_name rest nm (Acc.zero.merge b) _]
      rfl

/-! ### Export-level lemmas -/

/-- The exporter state returned by `export` is always the fully merged
registry (merge happens first, unconditionally), whatever the sink or the
clock does. -/
theorem export_fst (sink : Report → Except ExportError Unit) (now : ℕ)
    (e : DebugExporter) (ms : Measures) :
    (e.export sink now ms).1
      = ⟨(mergeLoop e.aggregated ms).1, e.creation_timestamp⟩ := by
  unfold DebugExporter.export
  cases systemTimeElapsed e.creation_timestamp now <;> rfl

/-- When the clock did not move backwards, `export` delivers the report
rendered from the fully merged registry to the sink and returns the sink's
result. -/
theorem export_snd_some (sink : Report → Except ExportError Unit) (now : ℕ)
    (e : DebugExporter) (ms : Measures) (h : e.creation_timestamp ≤ now) :
    (e.export sink now ms).2
      = some (⟨now - e.creation_timestamp, (mergeLoop e.aggregated ms).2,
              pretty_table (mergeLoop e.aggregated ms).1.measures⟩,
          sink ⟨now - e.creation_timestamp, (mergeLoop e.aggregated ms).2,
              pretty_table (mergeLoop e.aggregated ms).1.measures⟩) := by
  unfold DebugExporter.export systemTimeElapsed
  rw [if_pos h]

/-- When the clock moved backwards past the creation instant, the `unwrap`
on `elapsed` panics: no report and no result value are produced. -/
theorem export_snd_none (sink : Report → Except ExportError Unit) (now : ℕ)
    (e : DebugExporter) (ms : Measures) (h : now < e.creation_timestamp) :
    (e.export sink now ms).2 = none := by
  unfold DebugExporter.export systemTimeElapsed
  rw [if_neg (by omega)]

/-- Whenever `export` produces a report and a result, the report is the
rendering of the fully merged registry with the loop's samples figure, and
the result is the sink's verdict on that very report. -/
theorem export_some_inv (sink : Report → Except ExportError Unit) (now : ℕ)
    (e : DebugExporter) (ms : Measures) (rep : Report)
    (res : Except ExportError Unit)
    (h : (e.export sink now ms).2 = some (rep, res)) :
    rep.table = pretty_table (mergeLoop e.aggregated ms).1.measures ∧
    rep.samplesProcessed = (mergeLoop e.aggregated ms).2 ∧
    res = sink rep := by
  rcases le_or_lt e.creation_timestamp now with hle | hlt
  · rw [export_snd_some sink now e ms hle] at h
    obtain ⟨h1, h2⟩ : _ ∧ _ := by simpa using h
    rw [← h1, ← h2]
    exact ⟨rfl, rfl, rfl⟩
  · rw [export_snd_none sink now e ms hlt] at h
    exact Option.noConfusion h

/-- The rendered table has exactly one row per registry entry, in order,
labelled with the entry's name. -/
theorem pretty_table_names (ml : List Measure) :
    (pretty_table ml).map Row.name = ml.map Measure.name := by
  simp [pretty_table, List.map_map, Function.comp]

/-- The exporter state threaded through a sequence of export calls is the
fold of the merge loop over the batches. -/
theorem exportSeq_aggregated (sink : Report → Except ExportError Unit)
    (now : ℕ) :
    ∀ (batches : List Measures) (e : DebugExporter),
      (exportSeq sink now e batches).aggregated
        = batches.foldl (fun r ms => (mergeLoop r ms).1) e.aggregated := by
  intro batches
  induction batches with
  | nil => intro e; rfl
  | cons ms rest ih =>
      intro e
      show (exportSeq sink now (e.export sink now ms).1 rest).aggregated = _
      rw [ih (e.export sink now ms).1, export_fst]
      rfl

/-! ### Batch-sequence lemmas and rendering lemmas -/

/-- Folding merge loops over a sequence of batches preserves distinctness
of registered names. -/
theorem seqfold_names_nodup :
    ∀ (batches : List Measures) (r : MeasureRegistry), r.names.Nodup →
      (batches.foldl (fun r ms => (mergeLoop r ms).1) r).names.Nodup := by
  intro batches
  induction batches with
  | nil => intro r h; exact h
  | cons ms rest ih =>
      intro r h
      exact ih (mergeLoop r ms).1 (foldl_names_nodup ms.slice r 0 h)

/-- The names registered after a sequence of batches are the initially
registered ones together with every name occurring in some batch. -/
theorem seqfold_names_toFinset :
    ∀ (batches : List Measures) (r : MeasureRegistry),
      (batches.foldl (fun r ms => (mergeLoop r ms).1) r).names.toFinset
        = r.names.toFinset
          ∪ ((batches.map (fun ms => ms.slice.map Measure.name)).flatten).toFinset := by
  intro batches
  induction batches with
  | nil => intro r; simp
  | cons ms rest ih =>
      intro r
      show (rest.foldl _ (mergeLoop r ms).1).names.toFinset = _
      rw [ih (mergeLoop r ms).1]
      have : (mergeLoop r ms).1.names.toFinset
          = r.names.toFinset ∪ (ms.slice.map Measure.name).toFinset :=
        foldl_names_toFinset ms.slice r 0
      rw [this]
      simp [Finset.union_assoc]

/-- A sequence of batches only ever appends to the registered names. -/
theorem seqfold_names_extend :
    ∀ (batches : List Measures) (r : MeasureRegistry),
      ∃ t, (batches.foldl (fun r ms => (mergeLoop r ms).1) r).names
        = r.names ++ t := by
  intro batches
  induction batches with
  | nil => intro r; exact ⟨[], by simp⟩
  | cons ms rest ih =>
      intro r
      obtain ⟨t1, ht1⟩ := foldl_names_extend ms.slice r 0
      obtain ⟨t2, ht2⟩ := ih (mergeLoop r ms).1
      refine ⟨t1 ++ t2, ?_⟩
      show (rest.foldl _ (mergeLoop r ms).1).names = _
      rw [ht2]
      have ht1' : (mergeLoop r ms).1.names = r.names ++ t1 := ht1
      rw [ht1', List.append_assoc]

/-- The IEEE quotient with an exactly-zero divisor is never finite. -/
theorem ieeeDivAbs_zero_not_finite (u : ℚ) :
    (ieeeDivAbs u 0).isFinite = false := by
  unfold ieeeDivAbs
  rw [if_pos rfl]
  split_ifs <;> rfl

/-! ### Claim theorems -/

/-- C1: on every export, each (name, snapshot) pair of the batch is handled
in order by looking the name up, registering a fresh zero-state accumulator
exactly on a miss, and merging the snapshot into the accumulator at the
resulting index; only after the whole batch is merged is the full
accumulated registry state (including entries absent from the incoming
batch) rendered into the report delivered to the sink. -/
theorem C1_lookup_register_merge_then_render :
    (∀ (r : MeasureRegistry) (s : ℕ) (m : Measure),
      (r.find m.name = none →
        exportStep (r, s) m
          = (⟨r.measures ++ [⟨m.name, Acc.zero.merge m.acc⟩]⟩,
             (Acc.zero.merge m.acc).num_of_samples)) ∧
      (∀ idx, r.find m.name = some idx →
        exportStep (r, s) m
          = (⟨r.measures.set idx ⟨m.name, (r.accAt idx).merge m.acc⟩⟩,
             ((r.accAt idx).merge m.acc).num_of_samples))) ∧
    (∀ (sink : Report → Except ExportError Unit) (now : ℕ)
       (e : DebugExporter) (ms : Measures) (rep : Report)
       (res : Except ExportError Unit),
      (e.export sink now ms).2 = some (rep, res) →
        rep.table = pretty_table (mergeLoop e.aggregated ms).1.measures ∧
        (e.export sink now ms).1.aggregated = (mergeLoop e.aggregated ms).1 ∧
        ∀ mm ∈ e.aggregated.measures, ∃ row ∈ rep.table, row.name = mm.name) := by
  constructor
  · intro r s m
    exact ⟨exportStep_miss r s m, fun idx h => exportStep_hit r s m idx h⟩
  · intro sink now e ms rep res h
    obtain ⟨htab, _, _⟩ := export_some_inv sink now e ms rep res h
    refine ⟨htab, by rw [export_fst], ?_⟩
    intro mm hmm
    have hname : mm.name ∈ e.aggregated.names :=
      List.mem_map_of_mem Measure.name hmm
    obtain ⟨t, ht⟩ := foldl_names_extend ms.slice e.aggregated 0
    have hname2 : mm.name ∈ (mergeLoop e.aggregated ms).1.names := by
      have ht' : (mergeLoop e.aggregated ms).1.names
          = e.aggregated.names ++ t := ht
      rw [ht']
      exact List.mem_append_left t hname
    have hrows : rep.table.map Row.name
        = (mergeLoop e.aggregated ms).1.names := by
      rw [htab]
      exact pretty_table_names (mergeLoop e.aggregated ms).1.measures
    rw [← hrows] at hname2
    obtain ⟨row, hrow, hrn⟩ := List.mem_map.mp hname2
    exact ⟨row, hrow, hrn⟩

/-- Witness for C1 at concrete inputs: a miss on the empty registry
registers and merges; a hit merges in place; a concrete export call
renders the fully merged registry. -/
theorem C1_lookup_register_merge_then_render_witness :
    (exportStep (⟨[]⟩, 0) ⟨"e", ⟨1, 1, 1⟩⟩
      = (⟨[⟨"e", Acc.zero.merge ⟨1, 1, 1⟩⟩]⟩,
         (Acc.zero.merge ⟨1, 1, 1⟩).num_of_samples)) ∧
    (exportStep (⟨[⟨"e", ⟨1, 1, 1⟩⟩]⟩, 7) ⟨"e", ⟨2, 4, 1⟩⟩
      = (⟨[(⟨"e", ⟨1, 1, 1⟩⟩ : Measure)].set 0
            ⟨"e", ((⟨[⟨"e", ⟨1, 1, 1⟩⟩]⟩ : MeasureRegistry).accAt 0).merge ⟨2, 4, 1⟩⟩⟩,
         (((⟨[⟨"e", ⟨1, 1, 1⟩⟩]⟩ : MeasureRegistry).accAt 0).merge ⟨2, 4, 1⟩).num_of_samples)) ∧
    ((⟨3, (mergeLoop ⟨[]⟩ ⟨[⟨"e", ⟨1, 1, 1⟩⟩]⟩).2,
        pretty_table (mergeLoop ⟨[]⟩ ⟨[⟨"e", ⟨1, 1, 1⟩⟩]⟩).1.measures⟩ : Report).table
      = pretty_table (mergeLoop (⟨[]⟩ : MeasureRegistry) ⟨[⟨"e", ⟨1, 1, 1⟩⟩]⟩).1.measures ∧
     ((⟨⟨[]⟩, 2⟩ : DebugExporter).export stdoutSink 5 ⟨[⟨"e", ⟨1, 1, 1⟩⟩]⟩).1.aggregated
      = (mergeLoop (⟨[]⟩ : MeasureRegistry) ⟨[⟨"e", ⟨1, 1, 1⟩⟩]⟩).1 ∧
     ∀ mm ∈ (⟨[]⟩ : MeasureRegistry).measures,
       ∃ row ∈ (⟨3, (mergeLoop ⟨[]⟩ ⟨[⟨"e", ⟨1, 1, 1⟩⟩]⟩).2,
         pretty_table (mergeLoop ⟨[]⟩ ⟨[⟨"e", ⟨1, 1, 1⟩⟩]⟩).1.measures⟩ : Report).table,
         row.name = mm.name) := by
  refine ⟨(C1_lookup_register_merge_then_render.1 ⟨[]⟩ 0 ⟨"e", ⟨1, 1, 1⟩⟩).1 rfl,
    (C1_lookup_register_merge_then_render.1 ⟨[⟨"e", ⟨1, 1, 1⟩⟩]⟩ 7 ⟨"e", ⟨2, 4, 1⟩⟩).2 0 rfl,
    C1_lookup_register_merge_then_render.2 stdoutSink 5 ⟨⟨[]⟩, 2⟩
      ⟨[⟨"e", ⟨1, 1, 1⟩⟩]⟩ _ (Except.ok ()) rfl⟩

/-- C2: the registry merge of every batch element happens before any
reporting I/O is attempted: the exporter state returned by `export` is the
fully merged registry whatever sink is used, and in particular when the
sink fails at the reporting stage the merged aggregate is intact (nothing
is rolled back) and the report that failed was already a rendering of the
fully merged state. -/
theorem C2_merge_precedes_reporting :
    ∀ (sink : Report → Except ExportError Unit) (now : ℕ)
      (e : DebugExporter) (ms : Measures),
      (e.export sink now ms).1.aggregated = (mergeLoop e.aggregated ms).1 ∧
      (∀ sink2, (e.export sink2 now ms).1 = (e.export sink now ms).1) ∧
      (∀ rep err, (e.export sink now ms).2 = some (rep, Except.error err) →
        (e.export sink now ms).1.aggregated = (mergeLoop e.aggregated ms).1 ∧
        rep.table = pretty_table (mergeLoop e.aggregated ms).1.measures) := by
  intro sink now e ms
  refine ⟨by rw [export_fst], fun sink2 => by rw [export_fst, export_fst], ?_⟩
  intro rep err h
  obtain ⟨htab, _, _⟩ := export_some_inv sink now e ms rep (Except.error err) h
  exact ⟨by rw [export_fst], htab⟩

/-- Witness for C2 at a concrete input with a failing sink: the export
fails at the reporting stage yet the exporter's registry is the fully
merged one. -/
theorem C2_merge_precedes_reporting_witness :
    ((⟨⟨[]⟩, 2⟩ : DebugExporter).export
        (fun _ => Except.error ⟨"sink unavailable"⟩) 5
        ⟨[⟨"e", ⟨1, 1, 1⟩⟩]⟩).1.aggregated
      = (mergeLoop (⟨[]⟩ : MeasureRegistry) ⟨[⟨"e", ⟨1, 1, 1⟩⟩]⟩).1 ∧
    (⟨3, (mergeLoop ⟨[]⟩ ⟨[⟨"e", ⟨1, 1, 1⟩⟩]⟩).2,
        pretty_table (mergeLoop ⟨[]⟩ ⟨[⟨"e", ⟨1, 1, 1⟩⟩]⟩).1.measures⟩ : Report).table
      = pretty_table (mergeLoop (⟨[]⟩ : MeasureRegistry) ⟨[⟨"e", ⟨1, 1, 1⟩⟩]⟩).1.measures :=
  (C2_merge_precedes_reporting (fun _ => Except.error ⟨"sink unavailable"⟩) 5
    ⟨⟨[]⟩, 2⟩ ⟨[⟨"e", ⟨1, 1, 1⟩⟩]⟩).2.2 _ ⟨"sink unavailable"⟩ rfl

/-- C3: across any sequence of export calls on one exporter, the
find-then-register-on-miss protocol never creates two accumulators for the
same name: the registered names stay pairwise distinct, the registry holds
exactly one accumulator per distinct name seen, and its size equals the
number of distinct names occurring across all batches. -/
theorem C3_idempotent_registration :
    ∀ (sink : Report → Except ExportError Unit) (now now0 : ℕ)
      (batches : List Measures),
      (exportSeq sink now (DebugExporter.new now0) batches).aggregated.names.Nodup ∧
      (exportSeq sink now (DebugExporter.new now0) batches).aggregated.measures.length
        = ((batches.map (fun ms => ms.slice.map Measure.name)).flatten).toFinset.card ∧
      ∀ n, n ∈ (exportSeq sink now (DebugExporter.new now0) batches).aggregated.names
        ↔ n ∈ (batches.map (fun ms => ms.slice.map Measure.name)).flatten := by
  intro sink now now0 batches
  have hagg := exportSeq_aggregated sink now batches (DebugExporter.new now0)
  have hnodup : (exportSeq sink now (DebugExporter.new now0) batches).aggregated.names.Nodup := by
    rw [hagg]
    exact seqfold_names_nodup batches MeasureRegistry.new List.nodup_nil
  have htof : (exportSeq sink now (DebugExporter.new now0) batches).aggregated.names.toFinset
      = ((batches.map (fun ms => ms.slice.map Measure.name)).flatten).toFinset := by
    rw [hagg]
    have hnew : (DebugExporter.new now0).aggregated = MeasureRegistry.new := rfl
    rw [hnew, seqfold_names_toFinset batches MeasureRegistry.new]
    simp [MeasureRegistry.new, MeasureRegistry.names]
  refine ⟨hnodup, ?_, ?_⟩
  · rw [← htof, List.toFinset_card_of_nodup hnodup, names_length]
  · intro n
    rw [← List.mem_toFinset, htof, List.mem_toFinset]

/-- C4: for one named measurement, merging any partition of a sample set
into batches, in any order, into a fresh registry yields the same final
registry — in particular the same estimate, uncertainty, and sample
count — as merging all samples in a single batch. -/
theorem C4_merge_order_independence :
    ∀ (nm : String) (samples : List ℚ) (bss : List (List ℚ)),
      bss ≠ [] → bss.flatten.Perm samples →
      (mergeLoop MeasureRegistry.new
          ⟨bss.map (fun b => ⟨nm, accOfSamples b⟩)⟩).1
        = (mergeLoop MeasureRegistry.new ⟨[⟨nm, accOfSamples samples⟩]⟩).1 ∧
      ((mergeLoop MeasureRegistry.new
          ⟨bss.map (fun b => ⟨nm, accOfSamples b⟩)⟩).1.accAt 0).value
        = ((mergeLoop MeasureRegistry.new
            ⟨[⟨nm, accOfSamples samples⟩]⟩).1.accAt 0).value ∧
      ((mergeLoop MeasureRegistry.new
          ⟨bss.map (fun b => ⟨nm, accOfSamples b⟩)⟩).1.accAt 0).uncertainty
        = ((mergeLoop MeasureRegistry.new
            ⟨[⟨nm, accOfSamples samples⟩]⟩).1.accAt 0).uncertainty ∧
      ((mergeLoop MeasureRegistry.new
          ⟨bss.map (fun b => ⟨nm, accOfSamples b⟩)⟩).1.accAt 0).num_of_samples
        = ((mergeLoop MeasureRegistry.new
            ⟨[⟨nm, accOfSamples samples⟩]⟩).1.accAt 0).num_of_samples := by
  intro nm samples bss hne hperm
  have hmapne : bss.map accOfSamples ≠ [] := by
    intro hc
    exact hne (List.map_eq_nil_iff.mp hc)
  have hmaps : bss.map (fun b => (⟨nm, accOfSamples b⟩ : Measure))
      = (bss.map accOfSamples).map (fun a => (⟨nm, a⟩ : Measure)) := by
    rw [List.map_map]
    rfl
  have hL : (mergeLoop MeasureRegistry.new
      ⟨bss.map (fun b => ⟨nm, accOfSamples b⟩)⟩).1
      = ⟨[⟨nm, (bss.map accOfSamples).foldl Acc.merge Acc.zero⟩]⟩ := by
    rw [show (⟨bss.map (fun b => ⟨nm, accOfSamples b⟩)⟩ : Measures)
      = ⟨(bss.map accOfSamples).map (fun a => ⟨nm, a⟩)⟩ from by rw [hmaps]]
    exact mergeLoop_fresh_same_name nm (bss.map accOfSamples) hmapne
  have hR : (mergeLoop MeasureRegistry.new
      ⟨[⟨nm, accOfSamples samples⟩]⟩).1
      = ⟨[⟨nm, [accOfSamples samples].foldl Acc.merge Acc.zero⟩]⟩ :=
    mergeLoop_fresh_same_name nm [accOfSamples samples] (by simp)
  have hacc : (bss.map accOfSamples).foldl Acc.merge Acc.zero
      = [accOfSamples samples].foldl Acc.merge Acc.zero := by
    rw [foldl_merge_join bss Acc.zero, Acc.zero_merge,
      accOfSamples_perm hperm]
    show accOfSamples samples = Acc.zero.merge (accOfSamples samples)
    rw [Acc.zero_merge]
  have hmain : (mergeLoop MeasureRegistry.new
      ⟨bss.map (fun b => ⟨nm, accOfSamples b⟩)⟩).1
      = (mergeLoop MeasureRegistry.new ⟨[⟨nm, accOfSamples samples⟩]⟩).1 := by
    rw [hL, hR, hacc]
  exact ⟨hmain, by rw [hmain], by rw [hmain], by rw [hmain]⟩

/-- Witness for C4 at a concrete input: the samples 1, 2, 3 split into the
reordered batches [2] and [3, 1] aggregate exactly as the single batch
[1, 2, 3]. -/
theorem C4_merge_order_independence_witness :
    (mergeLoop MeasureRegistry.new
        ⟨[[(2 : ℚ)], [3, 1]].map (fun b => ⟨"e", accOfSamples b⟩)⟩).1
      = (mergeLoop MeasureRegistry.new ⟨[⟨"e", accOfSamples [1, 2, 3]⟩]⟩).1 ∧
    ((mergeLoop MeasureRegistry.new
        ⟨[[(2 : ℚ)], [3, 1]].map (fun b => ⟨"e", accOfSamples b⟩)⟩).1.accAt 0).value
      = ((mergeLoop MeasureRegistry.new
          ⟨[⟨"e", accOfSamples [1, 2, 3]⟩]⟩).1.accAt 0).value :=
  ⟨(C4_merge_order_independence "e" [1, 2, 3] [[2], [3, 1]]
      (by decide) (by decide)).1,
   (C4_merge_order_independence "e" [1, 2, 3] [[2], [3, 1]]
      (by decide) (by decide)).2.1⟩

/-- C5: rendered rows appear in first-seen (insertion) order: every export
call only appends new names to the registry, never reorders, renames, or
removes registered ones, and the rendered table lists exactly the
registered names in registry order; the same holds across any sequence of
export calls. -/
theorem C5_row_order_is_insertion_order :
    ∀ (sink : Report → Except ExportError Unit) (now : ℕ)
      (e : DebugExporter) (ms : Measures),
      (∃ t, (e.export sink now ms).1.aggregated.names
        = e.aggregated.names ++ t) ∧
      (∀ rep res, (e.export sink now ms).2 = some (rep, res) →
        rep.table.map Row.name = (e.export sink now ms).1.aggregated.names) ∧
      (∀ batches, ∃ t,
        (exportSeq sink now e batches).aggregated.names
          = e.aggregated.names ++ t) := by
  intro sink now e ms
  refine ⟨?_, ?_, ?_⟩
  · obtain ⟨t, ht⟩ := foldl_names_extend ms.slice e.aggregated 0
    refine ⟨t, ?_⟩
    rw [export_fst]
    exact ht
  · intro rep res h
    obtain ⟨htab, _, _⟩ := export_some_inv sink now e ms rep res h
    rw [htab, export_fst]
    exact pretty_table_names (mergeLoop e.aggregated ms).1.measures
  · intro batches
    obtain ⟨t, ht⟩ := seqfold_names_extend batches e.aggregated
    refine ⟨t, ?_⟩
    rw [exportSeq_aggregated]
    exact ht

/-- Witness for C5 at a concrete input: a second export whose batch names
an old measure and a new one keeps the old row first and renders exactly
the registered names in order. -/
theorem C5_row_order_is_insertion_order_witness :
    (⟨3, (mergeLoop ⟨[⟨"a", ⟨1, 1, 1⟩⟩]⟩ ⟨[⟨"b", ⟨2, 4, 1⟩⟩, ⟨"a", ⟨3, 9, 1⟩⟩]⟩).2,
        pretty_table (mergeLoop ⟨[⟨"a", ⟨1, 1, 1⟩⟩]⟩
          ⟨[⟨"b", ⟨2, 4, 1⟩⟩, ⟨"a", ⟨3, 9, 1⟩⟩]⟩).1.measures⟩ : Report).table.map Row.name
      = ((⟨⟨[⟨"a", ⟨1, 1, 1⟩⟩]⟩, 2⟩ : DebugExporter).export stdoutSink 5
          ⟨[⟨"b", ⟨2, 4, 1⟩⟩, ⟨"a", ⟨3, 9, 1⟩⟩]⟩).1.aggregated.names :=
  (C5_row_order_is_insertion_order stdoutSink 5 ⟨⟨[⟨"a", ⟨1, 1, 1⟩⟩]⟩, 2⟩
    ⟨[⟨"b", ⟨2, 4, 1⟩⟩, ⟨"a", ⟨3, 9, 1⟩⟩]⟩).2.1 _ (Except.ok ()) rfl

/-- C6: `ExportError` carries exactly one human-readable cause string; an
export call's result is `Ok(())` exactly when the sink accepted the
rendered report (merge plus render completed), and with the concrete
stdout sink (which cannot fail) a non-panicking export always returns
`Ok(())`. -/
theorem C6_export_error_contract :
    (∀ err : ExportError, ∃ s : String, err = ⟨s⟩) ∧
    (∀ (sink : Report → Except ExportError Unit) (now : ℕ)
       (e : DebugExporter) (ms : Measures) (rep : Report)
       (res : Except ExportError Unit),
      (e.export sink now ms).2 = some (rep, res) →
        ((res = Except.ok ()) ↔ sink rep = Except.ok ()) ∧
        res = sink rep) ∧
    (∀ (now : ℕ) (e : DebugExporter) (ms : Measures),
      e.creation_timestamp ≤ now →
        ∃ rep, (e.export stdoutSink now ms).2
          = some (rep, Except.ok ())) := by
  refine ⟨fun err => ⟨err.cause, rfl⟩, ?_, ?_⟩
  · intro sink now e ms rep res h
    obtain ⟨_, _, hres⟩ := export_some_inv sink now e ms rep res h
    exact ⟨by rw [hres], hres⟩
  · intro now e ms h
    exact ⟨_, export_snd_some stdoutSink now e ms h⟩

/-- Witness for C6 at a concrete input: a concrete export over the stdout
sink returns a report with result Ok. -/
theorem C6_export_error_contract_witness :
    ((Except.ok () = (Except.ok () : Except ExportError Unit))
      ↔ stdoutSink ⟨3, (mergeLoop ⟨[]⟩ ⟨[⟨"e", ⟨1, 1, 1⟩⟩]⟩).2,
          pretty_table (mergeLoop ⟨[]⟩ ⟨[⟨"e", ⟨1, 1, 1⟩⟩]⟩).1.measures⟩
        = Except.ok ()) ∧
    ∃ rep, ((⟨⟨[]⟩, 2⟩ : DebugExporter).export stdoutSink 5
        ⟨[⟨"e", ⟨1, 1, 1⟩⟩]⟩).2 = some (rep, Except.ok ()) :=
  ⟨(C6_export_error_contract.2.1 stdoutSink 5 ⟨⟨[]⟩, 2⟩ ⟨[⟨"e", ⟨1, 1, 1⟩⟩]⟩
      _ (Except.ok ()) rfl).1,
   C6_export_error_contract.2.2 5 ⟨⟨[]⟩, 2⟩ ⟨[⟨"e", ⟨1, 1, 1⟩⟩]⟩ (by decide)⟩

/-- C7: the caller-supplied batch is unchanged when export returns: in the
state-passing embedding the batch component — names and accumulator
values — is exactly the input batch, never reset, cleared, or otherwise
mutated. -/
theorem C7_batch_not_mutated :
    ∀ (sink : Report → Except ExportError Unit) (now : ℕ) (s : ProgState),
      (exportP sink now s).1.batch = s.batch ∧
      (exportP sink now s).1.batch.slice.map Measure.acc
        = s.batch.slice.map Measure.acc ∧
      (exportP sink now s).1.batch.slice.map Measure.name
        = s.batch.slice.map Measure.name :=
  fun _ _ _ => ⟨rfl, rfl, rfl⟩

/-- C8: every rendered row's relative uncertainty is the IEEE quotient of
the accumulator's uncertainty by the absolute value of its estimate; when
the estimate is exactly zero the rendered value is non-finite (an infinity
or NaN), never a fabricated finite value, and when the estimate is nonzero
it is the exact finite quotient. -/
theorem C8_relative_uncertainty_rendering :
    ∀ (ml : List Measure) (i : ℕ), i < ml.length →
      ((pretty_table ml).getD i junkRow).relativeUncertainty
        = ieeeDivAbs (ml.getD i junkMeasure).acc.uncertainty
            (ml.getD i junkMeasure).acc.value ∧
      ((ml.getD i junkMeasure).acc.value = 0 →
        (((pretty_table ml).getD i junkRow).relativeUncertainty).isFinite
          = false) ∧
      ((ml.getD i junkMeasure).acc.value ≠ 0 →
        ((pretty_table ml).getD i junkRow).relativeUncertainty
          = FVal.finite ((ml.getD i junkMeasure).acc.uncertainty
              / |(ml.getD i junkMeasure).acc.value|)) := by
  intro ml i h
  have hrow : (pretty_table ml).getD i junkRow
      = ⟨(ml.getD i junkMeasure).name, (ml.getD i junkMeasure).acc.value,
         (ml.getD i junkMeasure).acc.uncertainty,
         ieeeDivAbs (ml.getD i junkMeasure).acc.uncertainty
           (ml.getD i junkMeasure).acc.value⟩ :=
    getD_map_of_lt _ ml i junkMeasure junkRow h
  rw [hrow]
  refine ⟨rfl, ?_, ?_⟩
  · intro hz
    show (ieeeDivAbs (ml.getD i junkMeasure).acc.uncertainty
      (ml.getD i junkMeasure).acc.value).isFinite = false
    rw [hz]
    exact ieeeDivAbs_zero_not_finite _
  · intro hz
    show ieeeDivAbs (ml.getD i junkMeasure).acc.uncertainty
      (ml.getD i junkMeasure).acc.value = _
    unfold ieeeDivAbs
    rw [if_neg hz]

/-- Witness for C8 at a concrete input: a measure with estimate exactly 0
renders a non-finite relative uncertainty, and one with estimate 1 renders
the finite exact quotient. -/
theorem C8_relative_uncertainty_rendering_witness :
    ((([(⟨"z", ⟨0, 2, 2⟩⟩ : Measure)].getD 0 junkMeasure).acc.value = 0 →
      (((pretty_table [⟨"z", ⟨0, 2, 2⟩⟩]).getD 0 junkRow).relativeUncertainty).isFinite
        = false) ∧
     (((pretty_table [(⟨"z", ⟨0, 2, 2⟩⟩ : Measure)]).getD 0 junkRow).relativeUncertainty).isFinite
        = false) ∧
    ((pretty_table [(⟨"e", ⟨1, 1, 1⟩⟩ : Measure)]).getD 0 junkRow).relativeUncertainty
      = ieeeDivAbs ([(⟨"e", ⟨1, 1, 1⟩⟩ : Measure)].getD 0 junkMeasure).acc.uncertainty
          ([(⟨"e", ⟨1, 1, 1⟩⟩ : Measure)].getD 0 junkMeasure).acc.value := by
  refine ⟨⟨(C8_relative_uncertainty_rendering [⟨"z", ⟨0, 2, 2⟩⟩] 0 (by decide)).2.1, ?_⟩,
    (C8_relative_uncertainty_rendering [⟨"e", ⟨1, 1, 1⟩⟩] 0 (by decide)).1⟩
  exact (C8_relative_uncertainty_rendering [⟨"z", ⟨0, 2, 2⟩⟩] 0 (by decide)).2.1
    (show ((⟨0, 2, 2⟩ : Acc)).value = 0 by norm_num [Acc.value])

/-- C9: for a non-empty batch, the samples-processed figure produced by the
merge loop (the figure printed as "Samples processed") is the post-merge
sample count of the accumulator touched by the batch's last measurement —
a single accumulator's count, not a union count — and the printed report
carries exactly that figure. -/
theorem C9_samples_figure_is_last_touched :
    (∀ (r : MeasureRegistry) (s : ℕ) (ml : List Measure), ml ≠ [] →
      ∃ idx,
        (ml.foldl exportStep (r, s)).1.find (ml.getLastD junkMeasure).name
          = some idx ∧
        (ml.foldl exportStep (r, s)).2
          = ((ml.foldl exportStep (r, s)).1.accAt idx).num_of_samples) ∧
    (∀ (sink : Report → Except ExportError Unit) (now : ℕ)
       (e : DebugExporter) (ms : Measures) (rep : Report)
       (res : Except ExportError Unit),
      (e.export sink now ms).2 = some (rep, res) →
        rep.samplesProcessed = (mergeLoop e.aggregated ms).2) := by
  constructor
  · intro r s ml h
    rcases List.eq_nil_or_concat ml with rfl | ⟨l, m, rfl⟩
    · exact absurd rfl h
    · rw [List.concat_eq_append, List.foldl_append]
      have hlast : (l ++ [m]).getLastD junkMeasure = m := by
        rw [← List.concat_eq_append]
        simp
      rw [hlast]
      have heta : l.foldl exportStep (r, s)
          = ((l.foldl exportStep (r, s)).1, (l.foldl exportStep (r, s)).2) :=
        rfl
      show ∃ idx,
        (exportStep (l.foldl exportStep (r, s)) m).1.find m.name = some idx ∧
        (exportStep (l.foldl exportStep (r, s)) m).2
          = ((exportStep (l.foldl exportStep (r, s)) m).1.accAt idx).num_of_samples
      rw [heta]
      exact exportStep_find_post (l.foldl exportStep (r, s)).1
        (l.foldl exportStep (r, s)).2 m
  · intro sink now e ms rep res h
    exact (export_some_inv sink now e ms rep res h).2.1

/-- Witness for C9 at a concrete input: a two-measure batch whose last
measurement names "b"; the samples figure is the post-merge count of the
accumulator registered under "b". -/
theorem C9_samples_figure_is_last_touched_witness :
    ∃ idx,
      ([(⟨"a", ⟨1, 1, 1⟩⟩ : Measure), ⟨"b", ⟨2, 4, 2⟩⟩].foldl exportStep
          (MeasureRegistry.new, 0)).1.find
        (([(⟨"a", ⟨1, 1, 1⟩⟩ : Measure), ⟨"b", ⟨2, 4, 2⟩⟩].getLastD junkMeasure).name)
          = some idx ∧
      ([(⟨"a", ⟨1, 1, 1⟩⟩ : Measure), ⟨"b", ⟨2, 4, 2⟩⟩].foldl exportStep
          (MeasureRegistry.new, 0)).2
        = (([(⟨"a", ⟨1, 1, 1⟩⟩ : Measure), ⟨"b", ⟨2, 4, 2⟩⟩].foldl exportStep
            (MeasureRegistry.new, 0)).1.accAt idx).num_of_samples :=
  C9_samples_figure_is_last_touched.1 MeasureRegistry.new 0
    [⟨"a", ⟨1, 1, 1⟩⟩, ⟨"b", ⟨2, 4, 2⟩⟩] (by decide)

/-- C10: `export` unwraps `SystemTime::elapsed`, so when the system clock
has moved backwards past the exporter's creation timestamp the call panics
(no result — neither `Ok` nor an `ExportError` — is returned), even though
every registry merge has already succeeded; and for an empty batch the
reported samples-processed figure is its initial value 0. -/
theorem C10_elapsed_unwrap_panics_and_empty_batch :
    (∀ (sink : Report → Except ExportError Unit) (now : ℕ)
       (e : DebugExporter) (ms : Measures), now < e.creation_timestamp →
      (e.export sink now ms).2 = none ∧
      (e.export sink now ms).1.aggregated = (mergeLoop e.aggregated ms).1) ∧
    (∀ (sink : Report → Except ExportError Unit) (now : ℕ)
       (e : DebugExporter), e.creation_timestamp ≤ now →
      (e.export sink now ⟨[]⟩).2
        = some (⟨now - e.creation_timestamp, 0,
              pretty_table e.aggregated.measures⟩,
            sink ⟨now - e.creation_timestamp, 0,
              pretty_table e.aggregated.measures⟩)) := by
  constructor
  · intro sink now e ms h
    exact ⟨export_snd_none sink now e ms h, by rw [export_fst]⟩
  · intro sink now e h
    exact export_snd_some sink now e ⟨[]⟩ h

/-- Witness for C10 at concrete inputs: with the clock 3 seconds before
the creation instant the export panics after merging; with a healthy clock
an empty batch reports 0 samples processed. -/
theorem C10_elapsed_unwrap_panics_and_empty_batch_witness :
    (((⟨⟨[]⟩, 5⟩ : DebugExporter).export stdoutSink 2
        ⟨[⟨"e", ⟨1, 1, 1⟩⟩]⟩).2 = none ∧
     ((⟨⟨[]⟩, 5⟩ : DebugExporter).export stdoutSink 2
        ⟨[⟨"e", ⟨1, 1, 1⟩⟩]⟩).1.aggregated
       = (mergeLoop (⟨[]⟩ : MeasureRegistry) ⟨[⟨"e", ⟨1, 1, 1⟩⟩]⟩).1) ∧
    ((⟨⟨[⟨"e", ⟨1, 1, 1⟩⟩]⟩, 2⟩ : DebugExporter).export stdoutSink 5 ⟨[]⟩).2
      = some (⟨3, 0, pretty_table [⟨"e", ⟨1, 1, 1⟩⟩]⟩,
          stdoutSink ⟨3, 0, pretty_table [⟨"e", ⟨1, 1, 1⟩⟩]⟩) :=
  ⟨C10_elapsed_unwrap_panics_and_empty_batch.1 stdoutSink 2 ⟨⟨[]⟩, 5⟩
      ⟨[⟨"e", ⟨1, 1, 1⟩⟩]⟩ (by decide),
   C10_elapsed_unwrap_panics_and_empty_batch.2 stdoutSink 5
      ⟨⟨[⟨"e", ⟨1, 1, 1⟩⟩]⟩, 2⟩ (by decide)⟩

end Ergothic
